import Mathlib

/-!
Shallow embedding of the agentic tool-calling loop of
`src/mcp_client.py` (class `PlaywrightMCPClient`).

Modelling choices:
* Opaque structured values (tool inputs, JSON schemas, the `str()` form of a
  tool result) are embedded as `String`.
* A completion response's `stop_reason` is a `String`, compared literally with
  `"tool_use"` and `"end_turn"` exactly as the Python code does.
* The Anthropic completion endpoint is a pure function from the tool catalog
  and the message history to a response; the MCP tool-execution capability is
  a function returning `Except String MCPCallResult`, where `.error e` embeds
  a raised Python exception whose `str()` is `e`.
* A Python message whose content is a plain string is embedded as a content
  list holding a single text block.
* `run_agent_loop` returns, besides the Python return value, an
  instrumentation record (number of completion calls, the ordered list of
  tool dispatches, the final message history) so that counting and
  history-invariant claims can be stated.
-/

/-- Roles of conversation messages. -/
inductive Role where
  | user
  | assistant
deriving DecidableEq, Repr

/-- Content blocks of messages: text, a tool-invocation request
(`tool_use` with `id`, `name`, `input`), or a tool result
(`tool_result` with `tool_use_id`, `content`, `is_error`). -/
inductive Block where
  | text (t : String)
  | toolUse (id name input : String)
  | toolResult (tuId content : String) (isError : Bool)
deriving DecidableEq, Repr

/-- A conversation message: role plus content blocks. -/
structure Message where
  role : Role
  content : List Block
deriving DecidableEq, Repr

/-- A content item of an MCP tool-call result: either an item carrying a
`text` attribute or any other (non-text) item. -/
inductive ContentItem where
  | text (t : String)
  | other
deriving DecidableEq, Repr

/-- The result object returned by `session.call_tool`: either it has a
`content` attribute holding a list of content items, or it is embedded by
its `str()` form. -/
inductive MCPCallResult where
  | withContent (items : List ContentItem)
  | raw (s : String)
deriving DecidableEq, Repr

/-- A remote MCP tool record (`tool.name`, `tool.description` possibly
absent, `tool.inputSchema`). -/
structure MCPTool where
  name : String
  description : Option String
  inputSchema : String
deriving DecidableEq, Repr

/-- A tool descriptor in the Anthropic format built by
`get_available_tools` (and the shape of `final_answer_tool`). -/
structure AnthropicTool where
  name : String
  description : String
  input_schema : String
deriving DecidableEq, Repr

/-- A completion response: `stop_reason` and `content`. -/
structure Response where
  stop_reason : String
  content : List Block
deriving DecidableEq, Repr

/-- The MCP session capabilities that `run_agent_loop` uses: the remote tool
list served by `list_tools`, and the tool executor behind
`session.call_tool` (`.error e` embeds a raised exception). -/
structure Session where
  toolList : List MCPTool
  exec : String → String → Except String MCPCallResult

/-- The completion provider (`self.anthropic.messages.create`), as a pure
function of the tool catalog and the message history. -/
abbrev Provider := List AnthropicTool → List Message → Response

/-- Python return value of `run_agent_loop`: a structured final-answer
input (a dict) or a text string. -/
inductive RunResult where
  | structured (input : String)
  | text (s : String)
deriving DecidableEq, Repr

/-- The string literally returned when the iteration budget is exhausted
(also reached via `break` on an unexpected stop reason). -/
def maxIterationsMsg : String := "Error: Maximum iterations reached without completion"

/-- The message of the `RuntimeError` raised when no session exists. -/
def notConnectedMsg : String := "Not connected to MCP server. Call connect() first."

/-- `get_available_tools`: convert each MCP tool record to the Anthropic
shape, preserving order; `description or ""` defaults an absent description
to the empty string; the input schema passes through unchanged. -/
def convertTools (tools : List MCPTool) : List AnthropicTool :=
  tools.map fun t => { name := t.name, description := t.description.getD "", input_schema := t.inputSchema }

/-- `get_available_tools` including the session check: raises
(`.error`) when `self.session` is absent. -/
def get_available_tools (session : Option Session) : Except String (List AnthropicTool) :=
  match session with
  | none => .error notConnectedMsg
  | some s => .ok (convertTools s.toolList)

/-- `call_tool` including the session check. -/
def call_tool (session : Option Session) (tool_name tool_input : String) :
    Except String MCPCallResult :=
  match session with
  | none => .error notConnectedMsg
  | some s => s.exec tool_name tool_input

/-- Flattening of an MCP tool result into a single string: when the result
has a `content` attribute, collect the `text` of the text-bearing items and
join them with a newline; otherwise use the `str()` form. -/
def flattenResult (r : MCPCallResult) : String :=
  match r with
  | .withContent items =>
      String.intercalate "\n" (items.filterMap fun i =>
        match i with
        | .text t => some t
        | .other => none)
  | .raw s => s

/-- One non-final tool dispatch: on success, a tool result carrying the
flattened content; on a raised exception `e`, an error-flagged tool result
carrying `"Error: " ++ e`. Either way the block is keyed by the request's
`tool_use_id`. -/
def dispatchOne (exec : String → String → Except String MCPCallResult)
    (id name input : String) : Block :=
  match exec name input with
  | .ok r => .toolResult id (flattenResult r) false
  | .error e => .toolResult id ("Error: " ++ e) true

/-- Outcome of the `for block in response.content` loop: either the final
answer short-circuit fired (carrying the returned input and the dispatches
performed before it), or the full list of tool results was built. -/
inductive ProcOut where
  | finalAns (input : String) (disp : List (String × String))
  | results (trs : List Block) (disp : List (String × String))
deriving DecidableEq, Repr

/-- The `for block in response.content` body: skip non-`tool_use` blocks;
on a `tool_use` block whose name equals the final-answer tool's name,
return its input immediately (nothing after it is processed); otherwise
dispatch the tool and append a result block. -/
def processBlocks (exec : String → String → Except String MCPCallResult)
    (finalName : Option String) : List Block → ProcOut
  | [] => .results [] []
  | .toolUse id name input :: rest =>
      if finalName = some name then .finalAns input []
      else
        match processBlocks exec finalName rest with
        | .finalAns inp ds => .finalAns inp ((name, input) :: ds)
        | .results trs ds => .results (dispatchOne exec id name input :: trs) ((name, input) :: ds)
  | .text _ :: rest => processBlocks exec finalName rest
  | .toolResult _ _ _ :: rest => processBlocks exec finalName rest

/-- Instrumented outcome of a loop run: the Python return value plus the
number of completion calls, the ordered tool dispatches (name, input), and
the final message history. -/
structure LoopOutcome where
  result : RunResult
  completionCalls : Nat
  dispatches : List (String × String)
  history : List Message
deriving Repr

/-- Concatenation of the text of the text-bearing blocks of an `end_turn`
response (`final_response += block.text`). -/
def concatTextBlocks (bs : List Block) : String :=
  String.join (bs.filterMap fun b =>
    match b with
    | .text t => some t
    | _ => none)

/-- The `while iteration < max_iterations` loop. `fuel` is the number of
remaining iterations; `calls` and `disp` accumulate the instrumentation. -/
def runLoopAux (provider : Provider) (exec : String → String → Except String MCPCallResult)
    (tools : List AnthropicTool) (finalName : Option String) :
    Nat → List Message → Nat → List (String × String) → LoopOutcome
  | 0, messages, calls, disp =>
      { result := .text maxIterationsMsg, completionCalls := calls,
        dispatches := disp, history := messages }
  | fuel + 1, messages, calls, disp =>
      let response := provider tools messages
      if response.stop_reason = "tool_use" then
        let messages1 := messages ++ [{ role := .assistant, content := response.content }]
        match processBlocks exec finalName response.content with
        | .finalAns input ds =>
            { result := .structured input, completionCalls := calls + 1,
              dispatches := disp ++ ds, history := messages1 }
        | .results trs ds =>
            runLoopAux provider exec tools finalName fuel
              (messages1 ++ [{ role := .user, content := trs }]) (calls + 1) (disp ++ ds)
      else if response.stop_reason = "end_turn" then
        { result := .text (concatTextBlocks response.content), completionCalls := calls + 1,
          dispatches := disp, history := messages }
      else
        { result := .text maxIterationsMsg, completionCalls := calls + 1,
          dispatches := disp, history := messages }

/-- The tool catalog the loop sends to the completion provider: the
converted MCP catalog, with the final-answer tool appended when provided. -/
def loopTools (toolList : List MCPTool) (final_answer_tool : Option AnthropicTool) :
    List AnthropicTool :=
  match final_answer_tool with
  | none => convertTools toolList
  | some ft => convertTools toolList ++ [ft]

/-- `run_agent_loop`. `max_iterations` is a Python `int`, so it may be
non-positive; `Int.toNat` gives the number of times
`while iteration < max_iterations` can enter its body. The `.error` case
embeds the `RuntimeError` raised by `get_available_tools` when no session
exists. -/
def run_agent_loop (session : Option Session) (provider : Provider)
    (user_message : String) (max_iterations : Int)
    (final_answer_tool : Option AnthropicTool) : Except String LoopOutcome :=
  match session with
  | none => .error notConnectedMsg
  | some s =>
      let tools := loopTools s.toolList final_answer_tool
      .ok (runLoopAux provider s.exec tools (final_answer_tool.map AnthropicTool.name)
        max_iterations.toNat [{ role := .user, content := [.text user_message] }] 0 [])

/-- The initial history: one user message holding the task text. -/
def initMsg (user_message : String) : Message :=
  { role := .user, content := [.text user_message] }

/-- The (name, input) pairs of the `tool_use` blocks of a content list, in
order: these are the dispatches the block-processing loop performs when no
final-answer short circuit fires. -/
def toolUsePairs : List Block → List (String × String)
  | [] => []
  | .toolUse _ n i :: rest => (n, i) :: toolUsePairs rest
  | .text _ :: rest => toolUsePairs rest
  | .toolResult _ _ _ :: rest => toolUsePairs rest

/-- The tool results the block-processing loop builds for a content list
when no final-answer short circuit fires: one result per `tool_use` block,
in order, keyed by the request's id. -/
def resultsOf (exec : String → String → Except String MCPCallResult) :
    List Block → List Block
  | [] => []
  | .toolUse id n i :: rest => dispatchOne exec id n i :: resultsOf exec rest
  | .text _ :: rest => resultsOf exec rest
  | .toolResult _ _ _ :: rest => resultsOf exec rest

/-- The ids of the `tool_use` blocks of a content list, in order. -/
def toolUseIds : List Block → List String
  | [] => []
  | .toolUse id _ _ :: rest => id :: toolUseIds rest
  | .text _ :: rest => toolUseIds rest
  | .toolResult _ _ _ :: rest => toolUseIds rest

/-- The `tool_use_id`s of the `tool_result` blocks of a content list, in
order. -/
def resultIds : List Block → List String
  | [] => []
  | .toolResult id _ _ :: rest => id :: resultIds rest
  | .text _ :: rest => resultIds rest
  | .toolUse _ _ _ :: rest => resultIds rest

/-- Whether a message contains any `tool_result` block. -/
def hasToolResult (m : Message) : Bool :=
  m.content.any fun b =>
    match b with
    | .toolResult _ _ _ => true
    | _ => false

/-- Whether a content list is free of `tool_result` blocks (true of every
assistant response content the completion API produces). -/
def noToolResultBlocks (bs : List Block) : Bool :=
  bs.all fun b =>
    match b with
    | .toolResult _ _ _ => false
    | _ => true

/-- Well-pairedness of two adjacent history messages: whenever the second
contains tool results, it is a user message, its predecessor is an
assistant message, the result ids equal (hence answer, in order) the
predecessor's request ids, and those ids are distinct, so each result id
matches exactly one request of the immediately preceding assistant
message. -/
def resultPairOk (prev m : Message) : Prop :=
  hasToolResult m = true →
    m.role = Role.user ∧ prev.role = Role.assistant ∧
    resultIds m.content = toolUseIds prev.content ∧
    (toolUseIds prev.content).Nodup

instance (prev m : Message) : Decidable (resultPairOk prev m) := by
  unfold resultPairOk; infer_instance

/-- The history invariant: no tool result in the first message, and every
adjacent pair is well-paired (`resultPairOk`), so no orphaned result is
ever present. -/
def histOk (h : List Message) : Prop :=
  (∀ m ∈ h.head?, hasToolResult m = false) ∧ List.Chain' resultPairOk h

/-- The text payload the spec's words for tool-result flattening describe:
the plain concatenation, in order, of exactly the text-bearing items, with
every non-text item dropped. -/
def specConcatTexts (items : List ContentItem) : String :=
  String.join (items.filterMap fun i =>
    match i with
    | .text t => some t
    | .other => none)

/-- Concrete session fixture: no remote tools, an executor that always
succeeds with a raw result. -/
def sessW : Session := { toolList := [], exec := fun _ _ => .ok (.raw "ok") }

/-- Concrete provider fixture: always requests the non-final tool "nav". -/
def provToolUse : Provider := fun _ _ =>
  { stop_reason := "tool_use", content := [Block.toolUse "i" "nav" "x"] }

/-- Concrete provider fixture: ends the turn at once with two text
blocks. -/
def provEndTurn : Provider := fun _ _ =>
  { stop_reason := "end_turn", content := [Block.text "hello ", Block.text "world"] }

/-- Concrete provider fixture: one turn mixing a prior request, the
final-answer request, and a later request. -/
def provFinalMix : Provider := fun _ _ =>
  { stop_reason := "tool_use",
    content := [Block.toolUse "i0" "nav" "x", Block.toolUse "i1" "final" "A",
      Block.toolUse "i2" "nav2" "y"] }

/-- Concrete session fixture whose executor always raises. -/
def sessFail : Session := { toolList := [], exec := fun _ _ => .error "boom" }

/-- Concrete provider fixture: an unrecognized stop reason. -/
def provRefusal : Provider := fun _ _ => { stop_reason := "refusal", content := [] }

/-- Concrete tool-descriptor fixture for a final-answer tool. -/
def finalW : AnthropicTool := { name := "final", description := "", input_schema := "" }

/-! ### Helper lemmas -/

/-- When no `tool_use` block of a content list bears the final-answer name,
the block-processing loop builds one result per request, in order, and
dispatches exactly the (name, input) pairs of the requests. -/
theorem processBlocks_no_final (exec : String → String → Except String MCPCallResult)
    (fn : Option String) (bs : List Block)
    (h : ∀ id name input, Block.toolUse id name input ∈ bs → fn ≠ some name) :
    processBlocks exec fn bs = .results (resultsOf exec bs) (toolUsePairs bs) := by
  induction bs with
  | nil => rfl
  | cons b rest ih =>
    have hrest : ∀ id name input, Block.toolUse id name input ∈ rest → fn ≠ some name :=
      fun id name input hi => h id name input (List.mem_cons_of_mem _ hi)
    cases b with
    | text t =>
        simpa [processBlocks, resultsOf, toolUsePairs] using ih hrest
    | toolResult a c e =>
        simpa [processBlocks, resultsOf, toolUsePairs] using ih hrest
    | toolUse id n i =>
        have hne : fn ≠ some n := h id n i (List.mem_cons_self _ _)
        simp [processBlocks, hne, resultsOf, toolUsePairs, ih hrest]

/-- The first `tool_use` block bearing the final-answer name short-circuits
the block-processing loop: the loop returns that block's input, having
dispatched exactly the requests strictly before it. -/
theorem processBlocks_final (exec : String → String → Except String MCPCallResult)
    (f : String) (pre post : List Block) (id input : String)
    (hpre : ∀ id' inp', Block.toolUse id' f inp' ∉ pre) :
    processBlocks exec (some f) (pre ++ Block.toolUse id f input :: post) =
      .finalAns input (toolUsePairs pre) := by
  induction pre with
  | nil => simp [processBlocks, toolUsePairs]
  | cons b rest ih =>
    have hrest : ∀ id' inp', Block.toolUse id' f inp' ∉ rest :=
      fun id' inp' hi => hpre id' inp' (List.mem_cons_of_mem _ hi)
    cases b with
    | text t => simpa [processBlocks, toolUsePairs] using ih hrest
    | toolResult a c e => simpa [processBlocks, toolUsePairs] using ih hrest
    | toolUse id' n i =>
        have hne : ¬ ((some f : Option String) = some n) := by
          intro heq
          apply hpre id' i
          have hfn : f = n := by simpa using heq
          simp [hfn]
        simp [processBlocks, hne, toolUsePairs, ih hrest]

/-- No dispatch recorded from a block list free of final-named requests
bears the final-answer name. -/
theorem toolUsePairs_ne_final (f : String) (pre : List Block)
    (hpre : ∀ id' inp', Block.toolUse id' f inp' ∉ pre) :
    ∀ p ∈ toolUsePairs pre, p.1 ≠ f := by
  induction pre with
  | nil => intro p hp; simp [toolUsePairs] at hp
  | cons b rest ih =>
    have hrest : ∀ id' inp', Block.toolUse id' f inp' ∉ rest :=
      fun id' inp' hi => hpre id' inp' (List.mem_cons_of_mem _ hi)
    intro p hp
    cases b with
    | text t => exact ih hrest p (by simpa [toolUsePairs] using hp)
    | toolResult a c e => exact ih hrest p (by simpa [toolUsePairs] using hp)
    | toolUse id n i =>
        simp only [toolUsePairs, List.mem_cons] at hp
        rcases hp with hp | hp
        · subst hp
          intro hnf
          apply hpre id i
          simp only at hnf
          simp [hnf]
        · exact ih hrest p hp

/-- The result blocks built for one turn carry, in order, exactly the ids
of the `tool_use` requests of that turn. -/
theorem resultIds_resultsOf (exec : String → String → Except String MCPCallResult)
    (bs : List Block) : resultIds (resultsOf exec bs) = toolUseIds bs := by
  induction bs with
  | nil => rfl
  | cons b rest ih =>
    cases b with
    | text t => simpa [resultsOf, resultIds, toolUseIds] using ih
    | toolResult a c e => simpa [resultsOf, resultIds, toolUseIds] using ih
    | toolUse id n i =>
        cases hx : exec n i with
        | ok r =>
            have hd : dispatchOne exec id n i = Block.toolResult id (flattenResult r) false := by
              simp [dispatchOne, hx]
            simp [resultsOf, hd, resultIds, toolUseIds, ih]
        | error e =>
            have hd : dispatchOne exec id n i = Block.toolResult id ("Error: " ++ e) true := by
              simp [dispatchOne, hx]
            simp [resultsOf, hd, resultIds, toolUseIds, ih]

/-- Whenever the block-processing loop completes without a final-answer
short circuit, the produced results answer, in order, exactly the turn's
requests. -/
theorem processBlocks_results_ids (exec : String → String → Except String MCPCallResult)
    (fn : Option String) (bs : List Block) (trs : List Block) (ds : List (String × String))
    (h : processBlocks exec fn bs = .results trs ds) :
    resultIds trs = toolUseIds bs := by
  induction bs generalizing trs ds with
  | nil =>
      simp only [processBlocks] at h
      cases h
      rfl
  | cons b rest ih =>
    cases b with
    | text t =>
        simpa [toolUseIds] using ih trs ds (by simpa [processBlocks] using h)
    | toolResult a c e =>
        simpa [toolUseIds] using ih trs ds (by simpa [processBlocks] using h)
    | toolUse id n i =>
        simp only [processBlocks] at h
        by_cases hfn : fn = some n
        · simp [hfn] at h
        · simp only [if_neg hfn] at h
          cases hrec : processBlocks exec fn rest with
          | finalAns inp ds2 => rw [hrec] at h; cases h
          | results trs2 ds2 =>
              rw [hrec] at h
              cases h
              cases hx : exec n i with
              | ok r =>
                  have hd : dispatchOne exec id n i =
                      Block.toolResult id (flattenResult r) false := by
                    simp [dispatchOne, hx]
                  simp [hd, resultIds, toolUseIds, ih trs2 ds2 hrec]
              | error e =>
                  have hd : dispatchOne exec id n i =
                      Block.toolResult id ("Error: " ++ e) true := by
                    simp [dispatchOne, hx]
                  simp [hd, resultIds, toolUseIds, ih trs2 ds2 hrec]

/-- A message whose content is free of `tool_result` blocks does not
contain a tool result. -/
theorem hasToolResult_eq_false (r : Role) (bs : List Block)
    (h : noToolResultBlocks bs = true) :
    hasToolResult { role := r, content := bs } = false := by
  simp only [noToolResultBlocks, List.all_eq_true] at h
  simp only [hasToolResult, List.any_eq_false]
  intro b hb
  have hbb := h b hb
  cases b <;> simp_all

/-- Appending one result-free message preserves the history invariant. -/
theorem histOk_append_one (h : List Message) (m : Message) (hh : histOk h)
    (hm : hasToolResult m = false) : histOk (h ++ [m]) := by
  obtain ⟨hhead, hchain⟩ := hh
  constructor
  · cases h with
    | nil => intro x hx; simp at hx; subst hx; exact hm
    | cons y ys => intro x hx; exact hhead x (by simpa using hx)
  · rw [List.chain'_append]
    refine ⟨hchain, List.chain'_singleton m, ?_⟩
    intro x _ y hy
    simp at hy
    subst hy
    intro habs
    rw [hm] at habs
    cases habs

/-- Appending a result-free assistant message followed by a well-paired
user message preserves the history invariant. -/
theorem histOk_append_pair (h : List Message) (a u : Message) (hh : histOk h)
    (ha : hasToolResult a = false) (hau : resultPairOk a u) :
    histOk ((h ++ [a]) ++ [u]) := by
  have hrw : (h ++ [a]) ++ [u] = h ++ [a, u] := by simp
  rw [hrw]
  obtain ⟨hhead, hchain⟩ := hh
  constructor
  · cases h with
    | nil => intro x hx; simp at hx; subst hx; exact ha
    | cons y ys => intro x hx; exact hhead x (by simpa using hx)
  · rw [List.chain'_append]
    refine ⟨hchain, List.chain'_pair.mpr hau, ?_⟩
    intro x _ y hy
    simp at hy
    subst hy
    intro habs
    rw [ha] at habs
    cases habs

/-- The history invariant restricts to every prefix of a history. -/
theorem histOk_of_append (l t : List Message) (h : histOk (l ++ t)) : histOk l := by
  obtain ⟨hhead, hchain⟩ := h
  constructor
  · cases l with
    | nil => intro x hx; simp at hx
    | cons y ys =>
        intro x hx
        simp at hx
        subst hx
        exact hhead y (by simp)
  · exact (List.chain'_append.mp hchain).1

/-- The loop preserves the history invariant: provided the completion
provider answers with distinct request ids and without `tool_result`
blocks, every history the loop produces from a well-formed one is
well-formed. -/
theorem runLoopAux_histOk (provider : Provider)
    (exec : String → String → Except String MCPCallResult)
    (tools : List AnthropicTool) (fn : Option String)
    (hnod : ∀ msgs, (toolUseIds (provider tools msgs).content).Nodup)
    (hnores : ∀ msgs, noToolResultBlocks (provider tools msgs).content = true) :
    ∀ (fuel : Nat) (msgs : List Message) (calls : Nat) (disp : List (String × String)),
      histOk msgs →
      histOk (runLoopAux provider exec tools fn fuel msgs calls disp).history := by
  intro fuel
  induction fuel with
  | zero => intro msgs calls disp hm; exact hm
  | succ k ih =>
    intro msgs calls disp hm
    have ha : hasToolResult
        { role := Role.assistant, content := (provider tools msgs).content } = false :=
      hasToolResult_eq_false _ _ (hnores msgs)
    by_cases h1 : (provider tools msgs).stop_reason = "tool_use"
    · cases hpb : processBlocks exec fn (provider tools msgs).content with
      | finalAns input ds =>
          simp only [runLoopAux, h1, if_true, hpb]
          exact histOk_append_one msgs _ hm ha
      | results trs ds =>
          simp only [runLoopAux, h1, if_true, hpb]
          apply ih
          apply histOk_append_pair msgs _ _ hm ha
          intro _
          exact ⟨rfl, rfl, processBlocks_results_ids exec fn _ trs ds hpb, hnod msgs⟩
    · by_cases h2 : (provider tools msgs).stop_reason = "end_turn"
      · simp only [runLoopAux, h1, h2, if_false, if_true]
        exact hm
      · simp only [runLoopAux, h1, h2, if_false]
        exact hm

/-- With a provider that always requests tools and never names the
final-answer tool, every iteration consumes one completion call and the
loop ends in the iteration-exhaustion sentinel. -/
theorem runLoopAux_exhausts (provider : Provider)
    (exec : String → String → Except String MCPCallResult)
    (tools : List AnthropicTool) (fn : Option String)
    (hstop : ∀ msgs, (provider tools msgs).stop_reason = "tool_use")
    (hnf : ∀ msgs id name input,
      Block.toolUse id name input ∈ (provider tools msgs).content → fn ≠ some name) :
    ∀ (fuel : Nat) (msgs : List Message) (calls : Nat) (disp : List (String × String)),
      (runLoopAux provider exec tools fn fuel msgs calls disp).result = .text maxIterationsMsg ∧
      (runLoopAux provider exec tools fn fuel msgs calls disp).completionCalls = calls + fuel := by
  intro fuel
  induction fuel with
  | zero => intro msgs calls disp; exact ⟨rfl, rfl⟩
  | succ k ih =>
    intro msgs calls disp
    have h1 := hstop msgs
    have hpb := processBlocks_no_final exec fn (provider tools msgs).content (hnf msgs)
    simp only [runLoopAux, h1, if_true, hpb]
    obtain ⟨hres, hcalls⟩ := ih
      ((msgs ++ [{ role := Role.assistant, content := (provider tools msgs).content }]) ++
        [{ role := Role.user, content := resultsOf exec (provider tools msgs).content }])
      (calls + 1) (disp ++ toolUsePairs (provider tools msgs).content)
    refine ⟨hres, ?_⟩
    rw [hcalls]
    omega

/-! ### Claim theorems -/

/-- C1: in any iteration of the agent loop with a final-answer tool
registered, when the response's `tool_use` blocks are processed in order,
the first block whose name equals the final-answer tool's name terminates
the loop immediately: the run returns that block's input verbatim as the
structured result after exactly this completion call, the dispatches
performed are exactly those of the requests strictly before that block
(nothing after it is executed), and none of them is the final-answer
request itself. -/
theorem C1_final_answer_short_circuit (provider : Provider)
    (exec : String → String → Except String MCPCallResult)
    (tools : List AnthropicTool) (fname : String)
    (fuel : Nat) (msgs : List Message) (calls : Nat) (disp : List (String × String))
    (pre post : List Block) (id input : String)
    (hstop : (provider tools msgs).stop_reason = "tool_use")
    (hcontent : (provider tools msgs).content = pre ++ Block.toolUse id fname input :: post)
    (hpre : ∀ id' inp', Block.toolUse id' fname inp' ∉ pre) :
    runLoopAux provider exec tools (some fname) (fuel + 1) msgs calls disp =
      { result := .structured input,
        completionCalls := calls + 1,
        dispatches := disp ++ toolUsePairs pre,
        history := msgs ++
          [{ role := Role.assistant,
             content := pre ++ Block.toolUse id fname input :: post }] } ∧
    ∀ p ∈ toolUsePairs pre, p.1 ≠ fname := by
  have hpb := processBlocks_final exec fname pre post id input hpre
  refine ⟨?_, toolUsePairs_ne_final fname pre hpre⟩
  simp only [runLoopAux, hstop, hcontent, hpb, if_true]

/-- C1 witness: a concrete turn mixing a prior request, the final-answer
request and a later request. -/
theorem C1_witness :
    runLoopAux provFinalMix sessW.exec [] (some "final") 1 [initMsg "t"] 0 [] =
      { result := .structured "A",
        completionCalls := 1,
        dispatches := [("nav", "x")],
        history := [initMsg "t",
          { role := Role.assistant,
            content := [Block.toolUse "i0" "nav" "x", Block.toolUse "i1" "final" "A",
              Block.toolUse "i2" "nav2" "y"] }] } ∧
    ∀ p ∈ toolUsePairs [Block.toolUse "i0" "nav" "x"], p.1 ≠ "final" :=
  C1_final_answer_short_circuit provFinalMix sessW.exec [] "final" 0 [initMsg "t"] 0 []
    [Block.toolUse "i0" "nav" "x"] [Block.toolUse "i2" "nav2" "y"] "i1" "A"
    rfl rfl (by intro id' inp' h; simp at h)

/-- C2: for every iteration budget N ≥ 1, a provider that always answers
with a tool-use outcome naming only non-final tools makes the run perform
exactly N completion calls and return the iteration-exhaustion error
value. -/
theorem C2_iteration_exhaustion (s : Session) (provider : Provider) (task : String)
    (ft : Option AnthropicTool) (N : Int) (hN : 1 ≤ N)
    (hstop : ∀ msgs, (provider (loopTools s.toolList ft) msgs).stop_reason = "tool_use")
    (hnf : ∀ msgs id name input,
      Block.toolUse id name input ∈ (provider (loopTools s.toolList ft) msgs).content →
      ft.map AnthropicTool.name ≠ some name) :
    ∃ o : LoopOutcome, run_agent_loop (some s) provider task N ft = .ok o ∧
      o.result = .text maxIterationsMsg ∧ (o.completionCalls : Int) = N := by
  have h := runLoopAux_exhausts provider s.exec (loopTools s.toolList ft)
    (ft.map AnthropicTool.name) hstop hnf N.toNat
    [{ role := Role.user, content := [Block.text task] }] 0 []
  refine ⟨_, rfl, h.1, ?_⟩
  rw [h.2]
  omega

/-- C2 witness: budget 2, a provider constantly requesting a non-final
tool. -/
theorem C2_witness :
    ∃ o : LoopOutcome,
      run_agent_loop (some sessW) provToolUse "task" 2 (some finalW) = .ok o ∧
      o.result = .text maxIterationsMsg ∧ (o.completionCalls : Int) = 2 :=
  C2_iteration_exhaustion sessW provToolUse "task" (some finalW) 2
    (by decide) (fun _ => rfl)
    (by
      intro msgs id name input h
      simp [provToolUse] at h
      obtain ⟨h1, h2, h3⟩ := h
      subst h2
      decide)

/-- C3: when the first completion response has stop reason `end_turn`, the
run returns the concatenation, in order, of the text blocks of that
response, after one completion call and zero tool dispatches. -/
theorem C3_end_turn_returns_text (s : Session) (provider : Provider) (task : String)
    (ft : Option AnthropicTool) (N : Int) (hN : 1 ≤ N)
    (hstop : (provider (loopTools s.toolList ft) [initMsg task]).stop_reason = "end_turn") :
    run_agent_loop (some s) provider task N ft =
      .ok { result := .text
              (concatTextBlocks (provider (loopTools s.toolList ft) [initMsg task]).content),
            completionCalls := 1, dispatches := [], history := [initMsg task] } := by
  obtain ⟨k, hk⟩ : ∃ k, N.toNat = k + 1 := ⟨N.toNat - 1, by omega⟩
  simp only [initMsg] at hstop ⊢
  simp only [run_agent_loop]
  rw [hk]
  simp [runLoopAux, hstop]

/-- C3 witness: a first response that immediately ends the turn with two
text blocks. -/
theorem C3_witness :
    run_agent_loop (some sessW) provEndTurn "go" 3 none =
      .ok { result := .text "hello world", completionCalls := 1, dispatches := [],
            history := [initMsg "go"] } :=
  C3_end_turn_returns_text sessW provEndTurn "go" none 3 (by decide) rfl

/-- C10: a non-positive iteration budget violates the stated precondition;
the loop body is never entered, zero completion calls and zero dispatches
happen, and the iteration-exhaustion sentinel is returned at once. -/
theorem C10_nonpositive_budget (s : Session) (provider : Provider) (task : String)
    (ft : Option AnthropicTool) (N : Int) (hN : N ≤ 0) :
    run_agent_loop (some s) provider task N ft =
      .ok { result := .text maxIterationsMsg, completionCalls := 0, dispatches := [],
            history := [initMsg task] } := by
  have h0 : N.toNat = 0 := by omega
  simp [run_agent_loop, h0, runLoopAux, initMsg]

/-- C10 witness: budget -5 with a provider that would loop forever if
consulted. -/
theorem C10_witness :
    run_agent_loop (some sessW) provToolUse "task" (-5) none =
      .ok { result := .text maxIterationsMsg, completionCalls := 0, dispatches := [],
            history := [initMsg "task"] } :=
  C10_nonpositive_budget sessW provToolUse "task" none (-5) (by decide)

/-- Every request of a turn has its dispatch outcome among the turn's
result blocks. -/
theorem mem_resultsOf (exec : String → String → Except String MCPCallResult)
    (bs : List Block) (id name input : String)
    (hmem : Block.toolUse id name input ∈ bs) :
    dispatchOne exec id name input ∈ resultsOf exec bs := by
  induction bs with
  | nil => simp at hmem
  | cons b rest ih =>
    rcases List.mem_cons.mp hmem with h | h
    · subst h
      simp [resultsOf]
    · cases b <;> simp [resultsOf, List.mem_cons, ih h]

/-- C4: a dispatched non-final tool call whose execution raises does not
abort the run: the loop carries on to the next turn, appending a user
message of tool results in which the failing call is answered by an
error-flagged result carrying the failure text and the request's call
id. -/
theorem C4_tool_failure_is_data (provider : Provider)
    (exec : String → String → Except String MCPCallResult)
    (tools : List AnthropicTool) (fn : Option String)
    (fuel : Nat) (msgs : List Message) (calls : Nat) (disp : List (String × String))
    (id name input e : String)
    (hstop : (provider tools msgs).stop_reason = "tool_use")
    (hmem : Block.toolUse id name input ∈ (provider tools msgs).content)
    (hnf : ∀ id' name' input',
      Block.toolUse id' name' input' ∈ (provider tools msgs).content → fn ≠ some name')
    (herr : exec name input = .error e) :
    runLoopAux provider exec tools fn (fuel + 1) msgs calls disp =
      runLoopAux provider exec tools fn fuel
        ((msgs ++ [{ role := Role.assistant, content := (provider tools msgs).content }]) ++
          [{ role := Role.user, content := resultsOf exec (provider tools msgs).content }])
        (calls + 1) (disp ++ toolUsePairs (provider tools msgs).content) ∧
    Block.toolResult id ("Error: " ++ e) true ∈ resultsOf exec (provider tools msgs).content := by
  have hpb := processBlocks_no_final exec fn (provider tools msgs).content hnf
  constructor
  · simp only [runLoopAux, hstop, hpb, if_true]
  · have hd : dispatchOne exec id name input = Block.toolResult id ("Error: " ++ e) true := by
      simp [dispatchOne, herr]
    rw [← hd]
    exact mem_resultsOf exec _ id name input hmem

/-- C4 witness: one failing dispatch of the tool "nav"; the loop recurses
with an error-flagged result for call id "i". -/
theorem C4_witness :
    (runLoopAux provToolUse sessFail.exec [] none 1 [initMsg "t"] 0 [] =
      runLoopAux provToolUse sessFail.exec [] none 0
        (([initMsg "t"] ++
          [{ role := Role.assistant, content := [Block.toolUse "i" "nav" "x"] }]) ++
          [{ role := Role.user,
             content := resultsOf sessFail.exec [Block.toolUse "i" "nav" "x"] }])
        1 [("nav", "x")] ) ∧
    Block.toolResult "i" ("Error: " ++ "boom") true ∈
      resultsOf sessFail.exec [Block.toolUse "i" "nav" "x"] :=
  C4_tool_failure_is_data provToolUse sessFail.exec [] none 0 [initMsg "t"] 0 []
    "i" "nav" "x" "boom" rfl (by simp [provToolUse])
    (by intro id' name' input' h; simp) rfl

/-- C5 counterexample: on an unrecognized stop reason ("refusal") the run
aborts but returns exactly the iteration-exhaustion error value — the
claim's required distinctness from that value fails at this input. -/
theorem C5_counterexample :
    run_agent_loop (some sessW) provRefusal "task" 5 none =
      .ok { result := .text maxIterationsMsg, completionCalls := 1, dispatches := [],
            history := [initMsg "task"] } ∧
    RunResult.text maxIterationsMsg =
      RunResult.text "Error: Maximum iterations reached without completion" :=
  ⟨rfl, rfl⟩

/-- C5 amended: a completion response whose stop reason is neither
`tool_use` nor `end_turn` aborts the loop at once (no further completion
calls or dispatches) and returns the same error string the
iteration-exhaustion path returns — a value distinct from an empty text
result and from every structured result, but identical to the
iteration-exhaustion value. -/
theorem C5_unrecognized_stop_aborts (provider : Provider)
    (exec : String → String → Except String MCPCallResult)
    (tools : List AnthropicTool) (fn : Option String)
    (fuel : Nat) (msgs : List Message) (calls : Nat) (disp : List (String × String))
    (h1 : (provider tools msgs).stop_reason ≠ "tool_use")
    (h2 : (provider tools msgs).stop_reason ≠ "end_turn") :
    runLoopAux provider exec tools fn (fuel + 1) msgs calls disp =
      { result := .text maxIterationsMsg, completionCalls := calls + 1,
        dispatches := disp, history := msgs } ∧
    RunResult.text maxIterationsMsg ≠ RunResult.text "" ∧
    ∀ inp, RunResult.text maxIterationsMsg ≠ RunResult.structured inp := by
  refine ⟨?_, by decide, fun inp => by simp⟩
  simp only [runLoopAux]
  rw [if_neg h1, if_neg h2]

/-- C5 witness: the "refusal" stop reason aborts with the exhaustion
string. -/
theorem C5_witness :
    runLoopAux provRefusal sessW.exec [] none 4 [initMsg "t"] 0 [] =
      { result := .text maxIterationsMsg, completionCalls := 1,
        dispatches := [], history := [initMsg "t"] } ∧
    RunResult.text maxIterationsMsg ≠ RunResult.text "" ∧
    ∀ inp, RunResult.text maxIterationsMsg ≠ RunResult.structured inp :=
  C5_unrecognized_stop_aborts provRefusal sessW.exec [] none 3 [initMsg "t"] 0 []
    (by decide) (by decide)

/-- C6: provided the completion provider issues distinct request ids and
no `tool_result` blocks of its own, every history reachable in a run
(every prefix of the final history, histories being append-only)
satisfies the invariant: a message holding tool results is a user message
whose results answer, in order and one-to-one, exactly the requests of
the immediately preceding assistant message. -/
theorem C6_history_invariant (s : Session) (provider : Provider) (task : String)
    (ft : Option AnthropicTool) (N : Int)
    (hnod : ∀ msgs, (toolUseIds (provider (loopTools s.toolList ft) msgs).content).Nodup)
    (hnores : ∀ msgs,
      noToolResultBlocks (provider (loopTools s.toolList ft) msgs).content = true)
    (o : LoopOutcome) (hrun : run_agent_loop (some s) provider task N ft = .ok o) :
    ∀ l t : List Message, l ++ t = o.history → histOk l := by
  intro l t hlt
  have h2 : (Except.ok (runLoopAux provider s.exec (loopTools s.toolList ft)
      (ft.map AnthropicTool.name) N.toNat
      [{ role := Role.user, content := [Block.text task] }] 0 []) :
      Except String LoopOutcome) = .ok o := hrun
  injection h2 with h3
  have hinit : histOk [{ role := Role.user, content := [Block.text task] }] := by
    constructor
    · intro m hm
      simp at hm
      subst hm
      simp [hasToolResult]
    · exact List.chain'_singleton _
  have hfin := runLoopAux_histOk provider s.exec (loopTools s.toolList ft)
    (ft.map AnthropicTool.name) hnod hnores N.toNat
    [{ role := Role.user, content := [Block.text task] }] 0 [] hinit
  rw [h3] at hfin
  exact histOk_of_append l t (by rw [hlt]; exact hfin)

/-- C6 witness: the invariant at the (full) final history of a concrete
run. -/
theorem C6_witness : histOk [initMsg "go"] :=
  C6_history_invariant sessW provEndTurn "go" none 1
    (fun _ => List.nodup_nil) (fun _ => rfl)
    { result := .text "hello world", completionCalls := 1, dispatches := [],
      history := [initMsg "go"] }
    rfl [initMsg "go"] [] rfl

/-- C7 counterexample: with two text-bearing items the flattened payload
joins them with a newline, which is not their plain concatenation. -/
theorem C7_counterexample :
    flattenResult (.withContent [ContentItem.text "a", ContentItem.text "b"]) = "a\nb" ∧
    specConcatTexts [ContentItem.text "a", ContentItem.text "b"] = "ab" ∧
    flattenResult (.withContent [ContentItem.text "a", ContentItem.text "b"]) ≠
      specConcatTexts [ContentItem.text "a", ContentItem.text "b"] := by
  refine ⟨rfl, rfl, ?_⟩
  decide

/-- C7 amended: dispatch flattens a content-bearing tool response into the
newline-join, in order, of exactly the text-bearing items: non-text items
are dropped wherever they occur, and a purely text-bearing sequence is
joined verbatim in order. -/
theorem C7_flatten_amended (items : List ContentItem) :
    flattenResult (.withContent items) =
      String.intercalate "\n" (items.filterMap fun i =>
        match i with
        | .text t => some t
        | .other => none) ∧
    (∀ pre suf : List ContentItem,
      flattenResult (.withContent (pre ++ ContentItem.other :: suf)) =
        flattenResult (.withContent (pre ++ suf))) ∧
    (∀ ts : List String,
      flattenResult (.withContent (ts.map ContentItem.text)) =
        String.intercalate "\n" ts) := by
  refine ⟨rfl, ?_, ?_⟩
  · intro pre suf
    simp [flattenResult, List.filterMap_append]
  · intro ts
    have hc : ((fun i =>
        match i with
        | ContentItem.text t => some t
        | ContentItem.other => none) ∘ ContentItem.text) = some := rfl
    simp only [flattenResult, List.filterMap_map, hc, List.filterMap_some]

/-- C8: catalog translation preserves the remote order and maps each
record to the same name, the description defaulted to the empty string
when absent, and the schema unchanged; a supplied final-answer spec is
appended as one additional tool at the end; `get_available_tools` serves
exactly this translation from the session's single tool list. -/
theorem C8_catalog_translation (ts : List MCPTool) (ft : AnthropicTool)
    (exec0 : String → String → Except String MCPCallResult) :
    (convertTools ts).map AnthropicTool.name = ts.map MCPTool.name ∧
    (convertTools ts).map AnthropicTool.description =
      ts.map (fun t => t.description.getD "") ∧
    (convertTools ts).map AnthropicTool.input_schema = ts.map MCPTool.inputSchema ∧
    get_available_tools (some { toolList := ts, exec := exec0 }) = .ok (convertTools ts) ∧
    loopTools ts (some ft) = convertTools ts ++ [ft] ∧
    loopTools ts none = convertTools ts := by
  refine ⟨?_, ?_, ?_, rfl, rfl, rfl⟩ <;> simp [convertTools]

/-- C9: with no established session, `run_agent_loop`,
`get_available_tools` and `call_tool` all raise the connection
`RuntimeError` — before any completion request or tool dispatch can
occur. -/
theorem C9_requires_connection (provider : Provider) (task : String) (N : Int)
    (ft : Option AnthropicTool) (name input : String) :
    run_agent_loop none provider task N ft = .error notConnectedMsg ∧
    get_available_tools none = .error notConnectedMsg ∧
    call_tool none name input = .error notConnectedMsg :=
  ⟨rfl, rfl, rfl⟩
